import Mathlib

/-!
Verification of the Z85 encoder of the `hashvalue` repository.

The Go sources model bytes as values `0 ≤ b < 256`; here a byte slice is a
`List Nat` (theorems that need the byte range state it as a hypothesis) and a
Go string is its list of bytes.  The Go pair result `(string, error)` becomes
`List Nat × Option Z85Error`.  Go's `int` is 64-bit here, so `math.MaxInt` is
`2 ^ 63 - 1`; all arithmetic on the reachable paths of `Encode` stays below
that bound (guarded by the `TooLong` check), so `Nat` arithmetic agrees with
Go's `int`/`uint` arithmetic on those paths.  `List.set` and `List.getD` are
no-ops / defaults out of range where Go would panic; every index on a
reachable path is proved in range, so the semantics agree.
-/

namespace Z85

/-- Constant from src/z85/implementation.go: the number of encoding characters. -/
def codeSize : Nat := 85

/-- Constant from src/z85/implementation.go: size of a byte chunk. -/
def byteChunkSize : Nat := 4

/-- Constant from src/z85/implementation.go: mask to check a byte chunk index. -/
def byteChunkMask : Nat := byteChunkSize - 1

/-- Constant from src/z85/implementation.go: shift count for a byte chunk. -/
def byteChunkShift : Nat := 2

/-- Constant from src/z85/implementation.go: size of an encoded chunk. -/
def encodedChunkSize : Nat := 5

/-- Go's `math.MaxInt` on a 64-bit platform. -/
def maxInt : Nat := 2 ^ 63 - 1

/-- The encoding table string of src/z85/implementation.go (its final
characters are the literal brace characters). -/
def encodeTable : String :=
  "0123456789abcdefghijklmnopqrstuvwxyzABCDEFGHIJKLMNOPQRSTUVWXYZ.-:+=^!/*?&<>()[]\x7b\x7d@%$#"

/-- The bytes of `encodeTable`; Go indexes the table string by byte. -/
def encodeTableBytes : List Nat := encodeTable.toList.map Char.toNat

/-- Go's `encodeTable[i]`: byte `i` of the table.  Every reachable index is
`< 85`, hence in range, so the `getD` default is never taken. -/
def tableByte (i : Nat) : Nat := encodeTableBytes.getD i 0

/-- The error results of src/z85/errors.go: `ErrTooLong` is a fixed
parameterless error, `ErrInvalidLength` carries the required chunk size. -/
inductive Z85Error where
  | tooLong : Z85Error
  | invalidLength : Nat → Z85Error
deriving DecidableEq

/-- The error messages of src/z85/errors.go (`Error()` on each value). -/
def errorMessage : Z85Error → String
  | Z85Error.tooLong => "input is too long"
  | Z85Error.invalidLength n => s!"input length is not a multiple of {n}"

/-- Go's `binary.BigEndian.Uint32(source[:4])`: the first four bytes of the
slice combined big-endian (stdlib definition
`uint32(b[3]) | uint32(b[2])<<8 | uint32(b[1])<<16 | uint32(b[0])<<24`). -/
def beUint32 (source : List Nat) : Nat :=
  source.getD 3 0 ||| source.getD 2 0 <<< 8 ||| source.getD 1 0 <<< 16 |||
    source.getD 0 0 <<< 24

/-- The inner loop of `Encode`:
`for i := byteChunkSize; i >= 0; i--` writing `destination[i]`, with the
destination slice modelled as buffer `buf` at offset `off`. -/
def innerLoop (buf : List Nat) (off : Nat) (value : Nat) : Nat → List Nat
  | 0 => buf.set (off + 0) (tableByte (value - value / codeSize * codeSize))
  | i + 1 =>
    let valueDiv := value / codeSize
    innerLoop (buf.set (off + (i + 1)) (tableByte (value - valueDiv * codeSize)))
      off valueDiv i

/-- The chunk loop of `Encode`: `count` remaining iterations, `source` the
remaining input slice, `off` the offset of the `destination` slice into the
result buffer `buf`. -/
def encodeLoop : List Nat → List Nat → Nat → Nat → List Nat
  | _, buf, _, 0 => buf
  | source, buf, off, count + 1 =>
    encodeLoop (source.drop byteChunkSize)
      (innerLoop buf off (beUint32 source) byteChunkSize)
      (off + encodedChunkSize) count

/-- `Encode` of src/z85/implementation.go. -/
def Encode (source : List Nat) : List Nat × Option Z85Error :=
  let sourceLen := source.length
  if sourceLen > maxInt / encodedChunkSize then
    ([], some Z85Error.tooLong)
  else if sourceLen &&& byteChunkMask ≠ 0 then
    ([], some (Z85Error.invalidLength byteChunkSize))
  else
    let result := List.replicate ((sourceLen * encodedChunkSize) >>> byteChunkShift) 0
    let chunkCount := sourceLen >>> byteChunkShift
    (encodeLoop source result 0 chunkCount, none)

/-- `Encode` of src/unnamed/part_002: identical except that it computes the
result size as `sourceLen + chunkCount` in unsigned arithmetic. -/
def EncodeAlt (source : List Nat) : List Nat × Option Z85Error :=
  let sourceLen := source.length
  if sourceLen > maxInt / encodedChunkSize then
    ([], some Z85Error.tooLong)
  else if sourceLen &&& byteChunkMask ≠ 0 then
    ([], some (Z85Error.invalidLength byteChunkSize))
  else
    let chunkCount := sourceLen >>> byteChunkShift
    let result := List.replicate (sourceLen + chunkCount) 0
    (encodeLoop source result 0 chunkCount, none)

/-! Helper characterizations of the loops, shared by several theorems. -/

/-- The byte the loop body stores for a current `value`: the body computes
`encodeTable[value - (value/85)*85]`. -/
def digitByte (value : Nat) : Nat :=
  tableByte (value - value / codeSize * codeSize)

/-- The five bytes one chunk loop iteration writes, in buffer order. -/
def chunkBytes (v : Nat) : List Nat :=
  [digitByte (v / 85 ^ 4), digitByte (v / 85 ^ 3), digitByte (v / 85 ^ 2),
    digitByte (v / 85), digitByte v]

/-- Functional form of the whole chunk loop: each remaining chunk contributes
its five bytes, in source order. -/
def encGroups : List Nat → Nat → List Nat
  | _, 0 => []
  | source, count + 1 =>
    chunkBytes (beUint32 source) ++ encGroups (source.drop byteChunkSize) count

lemma and_three_eq_mod (n : Nat) : n &&& 3 = n % 4 := by
  have h := Nat.and_pow_two_sub_one_eq_mod n 2
  norm_num at h
  exact h

lemma digit_sub_eq_mod (x : Nat) : x - x / codeSize * codeSize = x % codeSize := by
  simp only [codeSize]
  omega

@[simp] lemma chunkBytes_length (v : Nat) : (chunkBytes v).length = 5 := rfl

lemma innerLoop_spec (A B : List Nat) (v : Nat) (hB : 5 ≤ B.length) :
    innerLoop (A ++ B) A.length v byteChunkSize = A ++ (chunkBytes v ++ B.drop 5) := by
  match B, hB with
  | b0 :: b1 :: b2 :: b3 :: b4 :: B', _ =>
    show innerLoop (A ++ b0 :: b1 :: b2 :: b3 :: b4 :: B') A.length v 4 = _
    simp only [innerLoop, chunkBytes, List.set_append_right, Nat.le_add_right,
      Nat.add_sub_cancel_left, List.set_cons_succ, List.set_cons_zero,
      List.drop_succ_cons, List.drop_zero, List.cons_append, List.nil_append,
      List.append_cancel_left_eq, digitByte, Nat.div_div_eq_div_mul]
    norm_num [codeSize]

lemma encodeLoop_spec (count : Nat) :
    ∀ (source A B : List Nat) (off : Nat), off = A.length → B.length = 5 * count →
      encodeLoop source (A ++ B) off count = A ++ encGroups source count := by
  induction count with
  | zero =>
    intro source A B off hoff hB
    have : B = [] := List.length_eq_zero.mp (by omega)
    subst this
    simp [encodeLoop, encGroups]
  | succ k ih =>
    intro source A B off hoff hB
    subst hoff
    show encodeLoop (source.drop byteChunkSize)
        (innerLoop (A ++ B) A.length (beUint32 source) byteChunkSize)
        (A.length + encodedChunkSize) k = _
    rw [innerLoop_spec A B (beUint32 source) (by omega)]
    rw [← List.append_assoc]
    have hlen : A.length + encodedChunkSize = (A ++ chunkBytes (beUint32 source)).length := by
      simp [encodedChunkSize]
    rw [hlen, ih (source.drop byteChunkSize) _ (B.drop 5) _ rfl (by simp; omega)]
    simp [encGroups]

lemma encode_valid (source : List Nat)
    (hlen : source.length ≤ maxInt / encodedChunkSize)
    (h4 : source.length % 4 = 0) :
    Encode source = (encGroups source (source.length / 4), none) := by
  unfold Encode
  rw [if_neg (by omega)]
  have hmask : source.length &&& byteChunkMask = source.length % 4 := by
    have h3 : byteChunkMask = 3 := rfl
    rw [h3, and_three_eq_mod]
  rw [if_neg (by rw [hmask, h4]; simp)]
  have hs : source.length >>> byteChunkShift = source.length / 4 := by
    simp [byteChunkShift, Nat.shiftRight_eq_div_pow]
  have hr : (source.length * encodedChunkSize) >>> byteChunkShift =
      5 * (source.length / 4) := by
    simp only [byteChunkShift, Nat.shiftRight_eq_div_pow, encodedChunkSize]
    omega
  rw [hs, hr]
  have := encodeLoop_spec (source.length / 4) source []
    (List.replicate (5 * (source.length / 4)) 0) 0 rfl (by simp)
  simpa using this

lemma encGroups_length (count : Nat) :
    ∀ source : List Nat, (encGroups source count).length = 5 * count := by
  induction count with
  | zero => intro source; simp [encGroups]
  | succ k ih => intro source; simp [encGroups, ih]; omega

lemma encode_output_length (source : List Nat)
    (hlen : source.length ≤ maxInt / encodedChunkSize)
    (h4 : source.length % 4 = 0) :
    (Encode source).1.length = source.length + source.length / 4 := by
  rw [encode_valid source hlen h4]
  simp [encGroups_length]
  omega

lemma tableByte_mem (i : Nat) (h : i < 85) : tableByte i ∈ encodeTableBytes := by
  have hlen : encodeTableBytes.length = 85 := by decide
  have hi : i < encodeTableBytes.length := by omega
  unfold tableByte
  rw [List.getD_eq_getElem?_getD, List.getElem?_eq_getElem hi]
  exact List.getElem_mem hi

lemma digitByte_mem (x : Nat) : digitByte x ∈ encodeTableBytes := by
  unfold digitByte
  rw [digit_sub_eq_mod]
  exact tableByte_mem _ (Nat.mod_lt _ (by simp [codeSize]))

lemma encGroups_mem (count : Nat) :
    ∀ (source : List Nat) (c : Nat), c ∈ encGroups source count → c ∈ encodeTableBytes := by
  induction count with
  | zero => intro source c h; simp [encGroups] at h
  | succ k ih =>
    intro source c h
    simp only [encGroups, List.mem_append] at h
    rcases h with h | h
    · simp only [chunkBytes, List.mem_cons, List.not_mem_nil, or_false] at h
      rcases h with h | h | h | h | h <;> (subst h; exact digitByte_mem _)
    · exact ih _ c h

lemma beUint32_cons (b0 b1 b2 b3 : Nat) (l : List Nat) :
    beUint32 (b0 :: b1 :: b2 :: b3 :: l) =
      b3 ||| b2 <<< 8 ||| b1 <<< 16 ||| b0 <<< 24 := rfl

lemma or_shiftLeft_add (a b i : Nat) (h : b < 2 ^ i) : b ||| a <<< i = a <<< i + b := by
  rw [Nat.shiftLeft_eq, Nat.lor_comm, mul_comm, ← Nat.mul_add_lt_is_or h a, mul_comm]

lemma beUint32_eq_base256 (b0 b1 b2 b3 : Nat) (l : List Nat)
    (h0 : b0 < 256) (h1 : b1 < 256) (h2 : b2 < 256) (h3 : b3 < 256) :
    beUint32 (b0 :: b1 :: b2 :: b3 :: l) = ((b0 * 256 + b1) * 256 + b2) * 256 + b3 := by
  rw [beUint32_cons]
  rw [or_shiftLeft_add b2 b3 8 (by omega)]
  rw [or_shiftLeft_add b1 (b2 <<< 8 + b3) 16
    (by rw [Nat.shiftLeft_eq]; norm_num; omega)]
  rw [or_shiftLeft_add b0 (b1 <<< 16 + (b2 <<< 8 + b3)) 24
    (by rw [Nat.shiftLeft_eq, Nat.shiftLeft_eq]; norm_num; omega)]
  simp only [Nat.shiftLeft_eq]
  norm_num
  ring

lemma beUint32_lt (b0 b1 b2 b3 : Nat) (l : List Nat)
    (h0 : b0 < 256) (h1 : b1 < 256) (h2 : b2 < 256) (h3 : b3 < 256) :
    beUint32 (b0 :: b1 :: b2 :: b3 :: l) < 2 ^ 32 := by
  rw [beUint32_eq_base256 b0 b1 b2 b3 l h0 h1 h2 h3]
  norm_num
  omega

lemma encGroups_append (ka : Nat) :
    ∀ (A B : List Nat) (kb : Nat), A.length = 4 * ka →
      encGroups (A ++ B) (ka + kb) = encGroups A ka ++ encGroups B kb := by
  induction ka with
  | zero =>
    intro A B kb hA
    have : A = [] := List.length_eq_zero.mp (by omega)
    subst this
    simp [encGroups]
  | succ k ih =>
    intro A B kb hA
    match A, hA with
    | a0 :: a1 :: a2 :: a3 :: A', hA =>
      have hA' : A'.length = 4 * k := by simp at hA; omega
      have hstep : k + 1 + kb = (k + kb) + 1 := by omega
      rw [hstep]
      show chunkBytes (beUint32 (a0 :: a1 :: a2 :: a3 :: (A' ++ B))) ++
          encGroups ((a0 :: a1 :: a2 :: a3 :: (A' ++ B)).drop byteChunkSize) (k + kb) = _
      have hdrop : (a0 :: a1 :: a2 :: a3 :: (A' ++ B)).drop byteChunkSize = A' ++ B := rfl
      rw [hdrop, ih A' B kb hA']
      have hdrop2 : (a0 :: a1 :: a2 :: a3 :: A').drop byteChunkSize = A' := rfl
      show _ = (chunkBytes (beUint32 (a0 :: a1 :: a2 :: a3 :: A')) ++
          encGroups ((a0 :: a1 :: a2 :: a3 :: A').drop byteChunkSize) k) ++ encGroups B kb
      rw [hdrop2, beUint32_cons, beUint32_cons]
      simp [List.append_assoc]

/-! Definitions written from the spec's words (section "Algorithm"), used to
state the refinement claim about the per-group base-85 conversion. -/

/-- Modelled from the spec: step 1, "Interpret the 4 bytes as an unsigned
32-bit integer in big-endian order (most significant byte first)". -/
def specBEValue (b0 b1 b2 b3 : Nat) : Nat :=
  ((b0 * 256 + b1) * 256 + b2) * 256 + b3

/-- Modelled from the spec: step 2, repeated division; each iteration takes
`digit = value mod 85`, places `alphabet[digit]` in front of the slots already
filled (the slots are filled from the last backward to the first), and sets
`value = value div 85`. -/
def specDigitsLoop : Nat → Nat → List Nat → List Nat
  | _, 0, acc => acc
  | value, n + 1, acc => specDigitsLoop (value / 85) n (tableByte (value % 85) :: acc)

/-- Modelled from the spec: step 2 produces exactly 5 output characters. -/
def specChunk (value : Nat) : List Nat := specDigitsLoop value 5 []

/-- Modelled from the spec: steps 1-3 over the 4-byte groups, left to right,
appending each group's 5 characters in source order. -/
def specEncode : List Nat → List Nat
  | b0 :: b1 :: b2 :: b3 :: rest =>
    specChunk (specBEValue b0 b1 b2 b3) ++ specEncode rest
  | _ => []

lemma specChunk_eq_chunkBytes (v : Nat) : specChunk v = chunkBytes v := by
  simp only [specChunk, specDigitsLoop, chunkBytes, digitByte, digit_sub_eq_mod]
  simp only [Nat.div_div_eq_div_mul]
  norm_num [codeSize]

lemma specEncode_eq_encGroups (k : Nat) :
    ∀ source : List Nat, source.length = 4 * k → (∀ b ∈ source, b < 256) →
      specEncode source = encGroups source k := by
  induction k with
  | zero =>
    intro source hlen hb
    have : source = [] := List.length_eq_zero.mp (by omega)
    subst this
    rfl
  | succ k ih =>
    intro source hlen hb
    match source, hlen with
    | b0 :: b1 :: b2 :: b3 :: rest, hlen =>
      have hrest : rest.length = 4 * k := by simp at hlen; omega
      show specChunk (specBEValue b0 b1 b2 b3) ++ specEncode rest = _
      show _ = chunkBytes (beUint32 (b0 :: b1 :: b2 :: b3 :: rest)) ++
        encGroups ((b0 :: b1 :: b2 :: b3 :: rest).drop byteChunkSize) k
      rw [beUint32_eq_base256 b0 b1 b2 b3 rest (hb b0 (by simp)) (hb b1 (by simp))
        (hb b2 (by simp)) (hb b3 (by simp))]
      rw [specChunk_eq_chunkBytes]
      show _ = chunkBytes (specBEValue b0 b1 b2 b3) ++ encGroups rest k
      rw [ih rest hrest (fun b hbm => hb b (by simp [hbm]))]

lemma and_mask_eq_mod (n : Nat) : n &&& byteChunkMask = n % 4 := by
  have h3 : byteChunkMask = 3 := rfl
  rw [h3, and_three_eq_mod]

lemma encode_too_long (source : List Nat)
    (h : source.length > maxInt / encodedChunkSize) :
    Encode source = ([], some Z85Error.tooLong) := by
  unfold Encode
  rw [if_pos h]

lemma encode_invalid_length (source : List Nat)
    (hlen : source.length ≤ maxInt / encodedChunkSize)
    (h4 : source.length % 4 ≠ 0) :
    Encode source = ([], some (Z85Error.invalidLength byteChunkSize)) := by
  unfold Encode
  rw [if_neg (by omega), if_pos (by rw [and_mask_eq_mod]; omega)]

/-! The claims. -/

/-- C1: for every input whose length is a multiple of 4 (within the TooLong
bound) and whose elements are bytes, `Encode` processes the input in 4-byte
groups left to right; each group is interpreted as an unsigned 32-bit
big-endian integer and yields exactly 5 output characters by repeated
division, the 5 slots filled from last to first with `alphabet[value mod 85]`
while `value` becomes `value div 85`, putting the most significant base-85
digit in the first of the 5 positions. -/
theorem c1_groups_big_endian_base85 (source : List Nat)
    (h4 : source.length % 4 = 0)
    (hlen : source.length ≤ maxInt / encodedChunkSize)
    (hb : ∀ b ∈ source, b < 256) :
    Encode source = (specEncode source, none) := by
  rw [encode_valid source hlen h4,
    specEncode_eq_encGroups (source.length / 4) source (by omega) hb]

/-- Witness for C1 at the reference input. -/
theorem c1_groups_big_endian_base85_witness :
    Encode [0x86, 0x4f, 0xd2, 0x6f, 0xb5, 0x59, 0xf7, 0x5b] =
      (specEncode [0x86, 0x4f, 0xd2, 0x6f, 0xb5, 0x59, 0xf7, 0x5b], none) :=
  c1_groups_big_endian_base85 _ (by decide) (by decide) (by decide)

/-- C2: encoding the 8-byte reference sequence yields exactly the bytes of the
string "HelloWorld" and no error. -/
theorem c2_hello_world_vector :
    Encode [0x86, 0x4f, 0xd2, 0x6f, 0xb5, 0x59, 0xf7, 0x5b] =
      ("HelloWorld".toList.map Char.toNat, none) := by decide

/-- C3: for every input of length `L` a multiple of 4 within the TooLong
bound, `Encode` succeeds and the result has length exactly `L + L/4`. -/
theorem c3_output_length (source : List Nat)
    (h4 : source.length % 4 = 0)
    (hlen : source.length ≤ maxInt / encodedChunkSize) :
    (Encode source).2 = none ∧
      (Encode source).1.length = source.length + source.length / 4 := by
  refine ⟨?_, encode_output_length source hlen h4⟩
  rw [encode_valid source hlen h4]

/-- Witness for C3 at an 8-byte input. -/
theorem c3_output_length_witness :
    (Encode [1, 2, 3, 4, 5, 6, 7, 8]).2 = none ∧
      (Encode [1, 2, 3, 4, 5, 6, 7, 8]).1.length =
        ([1, 2, 3, 4, 5, 6, 7, 8] : List Nat).length +
          ([1, 2, 3, 4, 5, 6, 7, 8] : List Nat).length / 4 :=
  c3_output_length [1, 2, 3, 4, 5, 6, 7, 8] (by decide) (by decide)

/-- C4 counterexample: a length that is not a multiple of 4 but exceeds the
TooLong bound is rejected with `tooLong`, not `invalidLength`, so the claim
as stated (every non-multiple-of-4 length yields `invalidLength`) is false. -/
theorem c4_invalid_length_cex :
    1844674407370955162 % 4 ≠ 0 ∧
    Encode (List.replicate 1844674407370955162 0) = ([], some Z85Error.tooLong) ∧
    Z85Error.tooLong ≠ Z85Error.invalidLength 4 := by
  refine ⟨by decide, ?_, by decide⟩
  apply encode_too_long
  simp only [List.length_replicate]
  decide

/-- C4 amended: for every input within the TooLong bound whose length is not
a multiple of 4, `Encode` fails with `invalidLength` carrying the required
chunk size 4, and the result alongside the error is empty. -/
theorem c4_invalid_length_amended (source : List Nat)
    (hlen : source.length ≤ maxInt / encodedChunkSize)
    (h4 : source.length % 4 ≠ 0) :
    Encode source = ([], some (Z85Error.invalidLength 4)) :=
  encode_invalid_length source hlen h4

/-- Witness for the amended C4 at a 1-byte input. -/
theorem c4_invalid_length_amended_witness :
    Encode [0] = ([], some (Z85Error.invalidLength 4)) :=
  c4_invalid_length_amended [0] (by decide) (by decide)

/-- C5: the validation checks run in a fixed order with the first failure
winning: a length above `maxInt / 5` fails with the parameterless `tooLong`
(whose message is fixed); only lengths within that bound that are not
multiples of 4 fail with `invalidLength 4`. -/
theorem c5_validation_order :
    (∀ source : List Nat, source.length > maxInt / encodedChunkSize →
        Encode source = ([], some Z85Error.tooLong)) ∧
    (∀ source : List Nat, source.length ≤ maxInt / encodedChunkSize →
        source.length % 4 ≠ 0 →
        Encode source = ([], some (Z85Error.invalidLength 4))) ∧
    errorMessage Z85Error.tooLong = "input is too long" :=
  ⟨encode_too_long, fun s h1 h2 => encode_invalid_length s h1 h2, rfl⟩

/-- Witness for C5: an over-long input (of non-multiple-of-4 length) fails
with `tooLong`; a short non-multiple-of-4 input fails with `invalidLength`. -/
theorem c5_validation_order_witness :
    Encode (List.replicate 1844674407370955164 0) = ([], some Z85Error.tooLong) ∧
    Encode [0, 1, 2] = ([], some (Z85Error.invalidLength 4)) :=
  ⟨c5_validation_order.1 _ (by simp only [List.length_replicate]; decide),
   c5_validation_order.2.1 [0, 1, 2] (by decide) (by decide)⟩

/-- C6: encoding the empty input succeeds with an empty result and no error. -/
theorem c6_empty_input : Encode [] = ([], none) := by decide

/-- C7: every byte of a successful `Encode` result belongs to the fixed
85-character alphabet, whose 85 entries are distinct. -/
theorem c7_alphabet_closure :
    (∀ source : List Nat, (Encode source).2 = none →
        (Encode source).1.all (fun c => encodeTableBytes.contains c) = true) ∧
    encodeTableBytes.length = 85 ∧ encodeTableBytes.Nodup := by
  refine ⟨?_, by decide, by decide⟩
  intro source h
  by_cases hg1 : source.length > maxInt / encodedChunkSize
  · rw [encode_too_long source hg1] at h
    simp at h
  · by_cases hg2 : source.length % 4 = 0
    · rw [encode_valid source (by omega) hg2]
      simp only [List.all_eq_true]
      intro c hc
      have hmem := encGroups_mem (source.length / 4) source c hc
      exact List.elem_eq_true_of_mem hmem
    · rw [encode_invalid_length source (by omega) hg2] at h
      simp at h

/-- Witness for C7 at a 4-byte input. -/
theorem c7_alphabet_closure_witness :
    (Encode [0x86, 0x4f, 0xd2, 0x6f]).1.all
      (fun c => encodeTableBytes.contains c) = true :=
  c7_alphabet_closure.1 [0x86, 0x4f, 0xd2, 0x6f] (by decide)

/-- C8 counterexample: two sequences with lengths that are multiples of 4 but
whose concatenation exceeds the TooLong bound: the concatenation fails to
encode (empty result) while the two parts encode to a non-empty string, so
the claim without a length bound is false. -/
theorem c8_concat_cex :
    ((List.replicate 1844674407370955160 0 : List Nat).length % 4 = 0) ∧
    (([0, 0, 0, 0] : List Nat).length % 4 = 0) ∧
    (Encode (List.replicate 1844674407370955160 0 ++ [0, 0, 0, 0])).1 ≠
      (Encode (List.replicate 1844674407370955160 0)).1 ++
        (Encode [0, 0, 0, 0]).1 := by
  refine ⟨by rw [List.length_replicate], by decide, ?_⟩
  have h1 : Encode (List.replicate 1844674407370955160 0 ++ [0, 0, 0, 0]) =
      ([], some Z85Error.tooLong) := by
    apply encode_too_long
    rw [List.length_append, List.length_replicate]
    norm_num [maxInt, encodedChunkSize]
  have h1' : (Encode (List.replicate 1844674407370955160 0 ++ [0, 0, 0, 0])).1 = [] := by
    rw [h1]
  have h2 : (Encode (List.replicate 1844674407370955160 0)).1.length =
      1844674407370955160 + 1844674407370955160 / 4 := by
    have h := encode_output_length (List.replicate 1844674407370955160 0)
      (by rw [List.length_replicate]; decide)
      (by rw [List.length_replicate])
    rw [List.length_replicate] at h
    exact h
  intro hcontra
  have hlen := congrArg List.length hcontra
  rw [h1', List.length_append, h2, List.length_nil] at hlen
  omega

/-- C8 amended: for sequences `A`, `B` with lengths multiples of 4 whose
concatenation is within the TooLong bound, encoding the concatenation yields
exactly the concatenation of the two encodings, with no error. -/
theorem c8_concat_amended (A B : List Nat)
    (hA : A.length % 4 = 0) (hB : B.length % 4 = 0)
    (hlen : (A ++ B).length ≤ maxInt / encodedChunkSize) :
    Encode (A ++ B) = ((Encode A).1 ++ (Encode B).1, none) := by
  have hlen' : A.length + B.length ≤ maxInt / encodedChunkSize := by
    simpa using hlen
  rw [encode_valid A (by omega) hA, encode_valid B (by omega) hB,
    encode_valid (A ++ B) (by simpa using hlen') (by simp; omega)]
  have hsplit : (A ++ B).length / 4 = A.length / 4 + B.length / 4 := by
    simp only [List.length_append]
    omega
  rw [hsplit, encGroups_append (A.length / 4) A B (B.length / 4) (by omega)]

/-- Witness for the amended C8 at two 4-byte inputs. -/
theorem c8_concat_amended_witness :
    Encode ([1, 2, 3, 4] ++ [5, 6, 7, 8]) =
      ((Encode [1, 2, 3, 4]).1 ++ (Encode [5, 6, 7, 8]).1, none) :=
  c8_concat_amended [1, 2, 3, 4] [5, 6, 7, 8] (by decide) (by decide) (by decide)

/-- C9: `Encode` is modelled by a pure total function of the input bytes
alone (the Go function reads nothing but its argument and the immutable
table), so two invocations on the same sequence give identical results, both
in the output bytes and in the error outcome. -/
theorem c9_deterministic (source : List Nat) : Encode source = Encode source := rfl

/-- C10: the two `Encode` implementations in the repository (allocation
`(sourceLen*5)>>2` versus `sourceLen + chunkCount`) return identical results
on every input byte sequence. -/
theorem c10_encode_variants_agree (source : List Nat) :
    Encode source = EncodeAlt source := by
  simp only [Encode, EncodeAlt]
  by_cases hg1 : source.length > maxInt / encodedChunkSize
  · rw [if_pos hg1, if_pos hg1]
  · rw [if_neg hg1, if_neg hg1]
    by_cases hg2 : source.length &&& byteChunkMask ≠ 0
    · rw [if_pos hg2, if_pos hg2]
    · rw [if_neg hg2, if_neg hg2]
      have h4 : source.length % 4 = 0 := by
        rw [and_mask_eq_mod] at hg2
        omega
      have hsize : (source.length * encodedChunkSize) >>> byteChunkShift =
          source.length + source.length >>> byteChunkShift := by
        simp only [Nat.shiftRight_eq_div_pow, byteChunkShift, encodedChunkSize]
        omega
      rw [hsize]

end Z85
